import Mathlib

/-!
Shallow embedding of the agecache LRU/TTL cache (src/cache.go) and proofs
about its documented behaviour.

Modelling conventions:
* `time.Time` and `time.Duration` are both nanosecond counts, modelled as
  `Int`; `time.Since ts` evaluated at instant `now` is `now - ts`.
* The Go `map[K]*list.Element` becomes an association list
  `items : List (K × Nat)` sending a key to the identity tag of a list
  element.  A `container/list` element is an identity-tagged entry
  `(Nat × Entry K V)`; the head of `evictionList` is the front (most
  recently used) element and the last element is the back (least recently
  used).  Pointer identity of `*list.Element` is the `Nat` tag: `nextId`
  supplies a fresh tag at each `PushFront`, and `list.Remove` or
  `list.MoveToFront` of an element removes the pair carrying its tag
  (reachable states carry each tag at most once).
* The eviction / expiration callbacks are modelled by an `events` log:
  each callback invocation appends one `Event` carrying the key and value
  it is invoked with (the Go code invokes the callback at exactly these
  program points whenever a callback is configured).
* `rand.Int63n` draws are explicit `randVal` arguments and `time.Now()`
  is an explicit `now` argument, so all operations are deterministic
  functions of the state and these inputs.
* Fields of the Go struct that only serve concurrency or the active
  expiration goroutine (`mutex`, `expirationType`, `expirationInterval`,
  the stored callback closures, `rand`) are omitted; the claims under
  proof concern the sequential state transformations only.
-/

namespace Agecache

/-- Entry pointed to by each list element (cacheEntry in cache.go). -/
structure Entry (K V : Type) where
  key : K
  value : V
  timestamp : Int
deriving DecidableEq

/-- One callback invocation: `evict k v` is a call of the OnEviction
callback, `expire k v` a call of the OnExpiration callback. -/
inductive Event (K V : Type) where
  | evict (key : K) (value : V)
  | expire (key : K) (value : V)
deriving DecidableEq

/-- The cache state (struct Cache in cache.go, with the concurrency-only
fields omitted; `nextId` is the tag supply for fresh list elements and
`events` the callback-invocation log). -/
structure Cache (K V : Type) where
  capacity : Int
  minAge : Int
  maxAge : Int
  sets : Nat
  gets : Nat
  hits : Nat
  misses : Nat
  evictions : Nat
  items : List (K × Nat)
  evictionList : List (Nat × Entry K V)
  nextId : Nat
  events : List (Event K V)
deriving DecidableEq

variable {K V : Type} [DecidableEq K]

/-- Lookup in the Go map `items` (keys are unique in reachable states;
this returns the binding for `k`, mirroring `cache.items[key]`). -/
def mapLookup (m : List (K × Nat)) (k : K) : Option Nat :=
  match m with
  | [] => none
  | p :: rest => if p.1 = k then some p.2 else mapLookup rest k

/-- Deletion from the Go map `items` (`delete(cache.items, key)`): removes
the binding(s) for `k`; reachable states hold at most one. -/
def mapErase (m : List (K × Nat)) (k : K) : List (K × Nat) :=
  match m with
  | [] => []
  | p :: rest => if p.1 = k then mapErase rest k else p :: mapErase rest k

/-- Dereference the list element carrying tag `id` (a Go pointer access);
returns its entry. -/
def findId (l : List (Nat × Entry K V)) (id : Nat) : Option (Entry K V) :=
  match l with
  | [] => none
  | p :: rest => if p.1 = id then some p.2 else findId rest id

/-- Remove the list element carrying tag `id` (`list.Remove(element)`);
removes the first such pair, and reachable states hold at most one. -/
def removeId (l : List (Nat × Entry K V)) (id : Nat) : List (Nat × Entry K V) :=
  match l with
  | [] => []
  | p :: rest => if p.1 = id then rest else p :: removeId rest id

/-- The back (least recently used) element of the list (`list.Back()`). -/
def backElem {α : Type} : List α → Option α
  | [] => none
  | [a] => some a
  | _ :: b :: rest => backElem (b :: rest)

/-- All elements but the back one. -/
def dropBack {α : Type} : List α → List α
  | [] => []
  | [_] => []
  | a :: b :: rest => a :: dropBack (b :: rest)

/-- The map association induced by the list: each element contributes the
binding from its entry key to its tag. -/
def image (l : List (Nat × Entry K V)) : List (K × Nat) :=
  l.map (fun p => (p.2.key, p.1))

/-- Keys stored in the list entries, front to back. -/
def listKeys (l : List (Nat × Entry K V)) : List K :=
  l.map (fun p => p.2.key)

/-- Identity tags of the list elements, front to back. -/
def listIds (l : List (Nat × Entry K V)) : List Nat :=
  l.map Prod.fst

/-- The staleness test of Get (cache.go line 212): the entry is live when
`maxAge == 0 || time.Since(entry.timestamp) <= maxAge`. -/
def isLive (maxAge ts now : Int) : Prop :=
  maxAge = 0 ∨ now - ts ≤ maxAge

instance (maxAge ts now : Int) : Decidable (isLive maxAge ts now) := by
  unfold isLive
  exact inferInstance

/-- getTimestamp (cache.go 465-475): `now` when jitter is disabled
(minAge == maxAge), otherwise `now` minus the random draw
`randVal = rand.Int63n((maxAge - minAge).Nanoseconds())`. -/
def Cache.getTimestamp (c : Cache K V) (now randVal : Int) : Int :=
  if c.minAge = c.maxAge then now else now - randVal

/-- deleteElement (cache.go 458-463): removes the element from the list
and deletes its entry key from the map. -/
def Cache.deleteElement (c : Cache K V) (el : Nat × Entry K V) : Cache K V :=
  { c with evictionList := removeId c.evictionList el.1,
           items := mapErase c.items el.2.key }

/-- evictOldest (cache.go 444-456): removes the back element, bumps the
evictions counter and fires the eviction callback; reports whether an
element was removed. -/
def Cache.evictOldest (c : Cache K V) : Cache K V × Bool :=
  match backElem c.evictionList with
  | none => (c, false)
  | some el =>
    let c1 := { c with evictions := c.evictions + 1 }
    let c2 := c1.deleteElement el
    ({ c2 with events := c2.events ++ [Event.evict el.2.key el.2.value] }, true)

/-- Set (cache.go 175-199): bump `sets`, then either move the existing
element to the front updating value and timestamp, or push a fresh
element and evict the back one when over capacity.  Returns whether an
eviction occurred. -/
def Cache.Set (c : Cache K V) (key : K) (value : V) (now randVal : Int) :
    Cache K V × Bool :=
  let c1 := { c with sets := c.sets + 1 }
  let timestamp := c1.getTimestamp now randVal
  match mapLookup c1.items key with
  | some id =>
    match findId c1.evictionList id with
    | some entry =>
      ({ c1 with evictionList :=
          (id, { entry with value := value, timestamp := timestamp }) ::
            removeId c1.evictionList id }, false)
    | none => (c1, false)
  | none =>
    let c2 := { c1 with
        evictionList := (c1.nextId, ⟨key, value, timestamp⟩) :: c1.evictionList,
        items := (key, c1.nextId) :: c1.items,
        nextId := c1.nextId + 1 }
    if (c2.evictionList.length : Int) > c2.capacity then
      ((c2.evictOldest).1, true)
    else
      (c2, false)

/-- Get (cache.go 204-229): bump `gets`; on a live hit move the element
to the front and bump `hits`; on an expired hit delete the element, bump
`misses` and fire the expiration callback; on a miss bump `misses`. -/
def Cache.Get (c : Cache K V) (key : K) (now : Int) : Cache K V × Option V :=
  let c1 := { c with gets := c.gets + 1 }
  match mapLookup c1.items key with
  | some id =>
    match findId c1.evictionList id with
    | some entry =>
      if isLive c1.maxAge entry.timestamp now then
        ({ c1 with evictionList := (id, entry) :: removeId c1.evictionList id,
                   hits := c1.hits + 1 }, some entry.value)
      else
        let c2 := c1.deleteElement (id, entry)
        let c3 := { c2 with misses := c2.misses + 1 }
        ({ c3 with events := c3.events ++ [Event.expire entry.key entry.value] },
          none)
    | none => ({ c1 with misses := c1.misses + 1 }, none)
  | none => ({ c1 with misses := c1.misses + 1 }, none)

/-- Has (cache.go 233-239): pure read; the cache state is returned
untouched, as the method only takes a read lock and mutates nothing. -/
def Cache.Has (c : Cache K V) (key : K) : Cache K V × Bool :=
  (c, (mapLookup c.items key).isSome)

/-- Peek (cache.go 244-253): pure read of the stored value; no promotion,
no expiration, no counter update. -/
def Cache.Peek (c : Cache K V) (key : K) : Cache K V × Option V :=
  (c, match mapLookup c.items key with
      | some id => (findId c.evictionList id).map Entry.value
      | none => none)

/-- Remove (cache.go 257-267): delete the element when present; no
callback fires and no counter moves. -/
def Cache.Remove (c : Cache K V) (key : K) : Cache K V × Bool :=
  match mapLookup c.items key with
  | some id =>
    match findId c.evictionList id with
    | some entry => (c.deleteElement (id, entry), true)
    | none => (c, true)
  | none => (c, false)

/-- EvictOldest (cache.go 272-277): public wrapper of evictOldest. -/
def Cache.EvictOldest (c : Cache K V) : Cache K V × Bool :=
  c.evictOldest

/-- Len (cache.go 280-285): `evictionList.Len()`. -/
def Cache.Len (c : Cache K V) : Nat :=
  c.evictionList.length

/-- The loop body of Clear: `for _, val := range cache.items {
cache.deleteElement(val) }`.  Each visited binding dereferences its
element and deletes it from both structures (the range order of a Go map
is unspecified; the model visits bindings in list order, and the result
is order-independent in reachable states). -/
def clearLoop (c : Cache K V) (todo : List (K × Nat)) : Cache K V :=
  todo.foldl (fun acc p =>
    match findId acc.evictionList p.2 with
    | some e => acc.deleteElement (p.2, e)
    | none => acc) c

/-- Clear (cache.go 288-296): delete every element the map references,
then `evictionList.Init()` empties the list. -/
def Cache.Clear (c : Cache K V) : Cache K V :=
  { clearLoop c c.items with evictionList := [] }

/-- Keys (cache.go 299-312): the map keys, in model order. -/
def Cache.Keys (c : Cache K V) : List K :=
  c.items.map Prod.fst

/-- OrderedKeys (cache.go 315-328): walks the list from `Back()` along
`Prev()`, so it lists keys oldest (back) to newest (front): the reverse
of the front-to-back key list. -/
def Cache.OrderedKeys (c : Cache K V) : List K :=
  (listKeys c.evictionList).reverse

/-- SetMaxAge (cache.go 333-346).  The Bool result is `true` when the Go
method returns a non-nil error (in that case nothing was mutated). -/
def Cache.SetMaxAge (c : Cache K V) (maxAge : Int) : Cache K V × Bool :=
  if maxAge < 0 then (c, true)
  else if maxAge < c.minAge then (c, true)
  else ({ c with maxAge := maxAge }, false)

/-- SetMinAge (cache.go 351-368).  The Bool result is `true` when the Go
method returns a non-nil error (in that case nothing was mutated). -/
def Cache.SetMinAge (c : Cache K V) (minAge : Int) : Cache K V × Bool :=
  if minAge < 0 then (c, true)
  else if c.maxAge < minAge then (c, true)
  else if minAge = 0 then ({ c with minAge := c.maxAge }, false)
  else ({ c with minAge := minAge }, false)

/-- The eviction loop of Resize: `for i := 0; i < c-n; i++ { if
!cache.evictOldest() { break } }`, modelled with the iteration count as
fuel and the break on an unsuccessful eviction. -/
def Cache.resizeLoop : Cache K V → Nat → Cache K V
  | c, 0 => c
  | c, n + 1 =>
    let r := c.evictOldest
    if r.2 then Cache.resizeLoop r.1 n else r.1

/-- Resize (cache.go 404-422): errors on `n <= 0` (Bool result `true`);
otherwise installs the new capacity and runs the eviction loop
`oldCapacity - n` times (note: the Go code uses the old capacity, not the
current length, as the iteration count). -/
def Cache.Resize (c : Cache K V) (n : Int) : Cache K V × Bool :=
  if n ≤ 0 then (c, true)
  else
    let c1 := { c with capacity := n }
    (c1.resizeLoop (c.capacity - n).toNat, false)

/-- New (cache.go 120-171): the four validation panics are modelled as
`none`; on success the cache starts empty, with `minAge` replaced by
`maxAge` when the configured MinAge is zero (cache.go 137-140). -/
def New (capacity maxAge minAge : Int) : Option (Cache K V) :=
  if capacity ≤ 0 then none
  else if maxAge < 0 then none
  else if minAge < 0 then none
  else if 0 < minAge ∧ maxAge < minAge then none
  else some
    { capacity := capacity
      minAge := if minAge = 0 then maxAge else minAge
      maxAge := maxAge
      sets := 0, gets := 0, hits := 0, misses := 0, evictions := 0
      items := [], evictionList := [], nextId := 0, events := [] }

/-- Stats (cache.go 20-28): all fields are Go int64 values. -/
structure Stats where
  Capacity : Int
  Count : Int
  Sets : Int
  Gets : Int
  Hits : Int
  Misses : Int
  Evictions : Int
deriving DecidableEq

/-- Reduction of an integer to Go int64 two-complement semantics: the
result of any int64 arithmetic step in Go. -/
def int64wrap (x : Int) : Int :=
  (x + 2 ^ 63) % 2 ^ 64 - 2 ^ 63

/-- The values an int64 field can hold. -/
def int64Range (x : Int) : Prop :=
  -(2 ^ 63) ≤ x ∧ x < 2 ^ 63

instance {x : Int} : Decidable (int64Range x) := by
  unfold int64Range
  exact inferInstance

/-- Stats.Delta (cache.go 32-42): gauges are copied, counters are the
int64 difference since `previous`. -/
def Stats.Delta (stats previous : Stats) : Stats :=
  { Capacity := stats.Capacity
    Count := stats.Count
    Sets := int64wrap (stats.Sets - previous.Sets)
    Gets := int64wrap (stats.Gets - previous.Gets)
    Hits := int64wrap (stats.Hits - previous.Hits)
    Misses := int64wrap (stats.Misses - previous.Misses)
    Evictions := int64wrap (stats.Evictions - previous.Evictions) }

/-- One public mutating operation together with its external inputs. -/
inductive Op (K V : Type) where
  | set (key : K) (value : V) (now randVal : Int)
  | get (key : K) (now : Int)
  | remove (key : K)
  | evictOldest
  | clear
  | resize (n : Int)

/-- Apply one operation, keeping the resulting state. -/
def applyOp (c : Cache K V) : Op K V → Cache K V
  | .set k v now r => (c.Set k v now r).1
  | .get k now => (c.Get k now).1
  | .remove k => (c.Remove k).1
  | .evictOldest => (c.EvictOldest).1
  | .clear => c.Clear
  | .resize n => (c.Resize n).1

/-- Run a sequence of operations. -/
def run (c : Cache K V) (ops : List (Op K V)) : Cache K V :=
  ops.foldl applyOp c

/-- Run a sequence of Set operations, each given as
(key, value, now, randVal). -/
def runSets (c : Cache K V) (l : List (K × V × Int × Int)) : Cache K V :=
  l.foldl (fun acc q => (acc.Set q.1 q.2.1 q.2.2.1 q.2.2.2).1) c

/-- Well-formedness of the items map together with the eviction list: the
map is (up to order) exactly the binding from each element entry key to
the element tag; keys and tags appear at most once; all tags are below
the fresh-tag supply. -/
def WFparts (m : List (K × Nat)) (l : List (Nat × Entry K V)) (n : Nat) : Prop :=
  m.Perm (image l) ∧ (listKeys l).Nodup ∧ (listIds l).Nodup ∧ ∀ p ∈ l, p.1 < n

/-- Well-formedness of a cache state. -/
def WF (c : Cache K V) : Prop :=
  WFparts c.items c.evictionList c.nextId

instance {m : List (K × Nat)} {l : List (Nat × Entry K V)} {n : Nat} :
    Decidable (WFparts m l n) := by
  unfold WFparts
  exact inferInstance

instance {c : Cache K V} : Decidable (WF c) := by
  unfold WF
  exact inferInstance

/-! ### Concrete states and inputs used by the witnesses below -/

/-- The overflow Stats record: its Sets counter holds the least int64. -/
def statsOv : Stats := ⟨0, 0, -(2 ^ 63), 0, 0, 0, 0⟩

/-- A Stats record whose Sets counter is 1. -/
def statsOvPrev : Stats := ⟨0, 0, 1, 0, 0, 0, 0⟩

/-- An ordinary Stats snapshot. -/
def statsW : Stats := ⟨7, 3, 5, 6, 4, 2, 1⟩

/-- An earlier ordinary Stats snapshot. -/
def statsWPrev : Stats := ⟨9, 9, 2, 3, 1, 1, 0⟩

/-- The cache produced by New 4 100 0: note minAge was replaced by maxAge. -/
def jitterBase : Cache Nat Nat := ⟨4, 100, 100, 0, 0, 0, 0, 0, [], [], 0, []⟩

/-- The cache produced by New 2 100 0. -/
def jitterCW : Cache Nat Nat := ⟨2, 100, 100, 0, 0, 0, 0, 0, [], [], 0, []⟩

/-- The cache produced by New 2 100 40: minAge 40 < maxAge 100, jitter on. -/
def jitterCJW : Cache Nat Nat := ⟨2, 40, 100, 0, 0, 0, 0, 0, [], [], 0, []⟩

/-- The cache produced by New 10 0 0: capacity 10, expiration disabled. -/
def resizeBase : Cache Nat Nat := ⟨10, 0, 0, 0, 0, 0, 0, 0, [], [], 0, []⟩

/-- resizeBase after two Sets: capacity 10, two live entries. -/
def resizeSetup : Cache Nat Nat := run resizeBase [Op.set 1 1 0 0, Op.set 2 2 0 0]

/-- The cache produced by New 3 7 7. -/
def c3base : Cache Nat Nat := ⟨3, 7, 7, 0, 0, 0, 0, 0, [], [], 0, []⟩

/-- A mixed operation sequence exercising every Op constructor. -/
def c3ops : List (Op Nat Nat) :=
  [Op.set 1 10 0 0, Op.set 2 20 1 0, Op.get 1 2, Op.set 3 30 3 0,
   Op.set 4 40 4 0, Op.remove 2, Op.evictOldest, Op.resize 1, Op.get 9 5,
   Op.clear, Op.set 5 50 6 0]

/-- The cache produced by New 2 0 0. -/
def c4base : Cache Nat Nat := ⟨2, 0, 0, 0, 0, 0, 0, 0, [], [], 0, []⟩

/-- A Set sequence longer than the capacity of c4base. -/
def c4sets : List (Nat × Nat × Int × Int) :=
  [(1, 1, 0, 0), (2, 2, 0, 0), (3, 3, 0, 0), (1, 5, 0, 0)]

/-- The cache produced by New 3 10 10 (maxAge = minAge = 10). -/
def c5base : Cache Nat Nat := ⟨3, 10, 10, 0, 0, 0, 0, 0, [], [], 0, []⟩

/-- c5base holding key 1 with value 99, stored at instant 0. -/
def c5state : Cache Nat Nat := run c5base [Op.set 1 99 0 0]

/-- The cache produced by New 2 0 0, then filled to capacity. -/
def c7base : Cache Nat Nat := ⟨2, 0, 0, 0, 0, 0, 0, 0, [], [], 0, []⟩

/-- c7base holding keys 1 and 2; key 1 is the least recently used. -/
def c7state : Cache Nat Nat := run c7base [Op.set 1 11 0 0, Op.set 2 22 1 0]

/-! ### Equation lemmas for the recursive list helpers -/

theorem mapLookup_nil {k : K} : mapLookup ([] : List (K × Nat)) k = none := rfl

theorem mapLookup_cons {p : K × Nat} {m : List (K × Nat)} {k : K} :
    mapLookup (p :: m) k = if p.1 = k then some p.2 else mapLookup m k := rfl

theorem findId_nil {id : Nat} : findId ([] : List (Nat × Entry K V)) id = none := rfl

theorem findId_cons {p : Nat × Entry K V} {l : List (Nat × Entry K V)} {id : Nat} :
    findId (p :: l) id = if p.1 = id then some p.2 else findId l id := rfl

theorem removeId_nil {id : Nat} : removeId ([] : List (Nat × Entry K V)) id = [] := rfl

theorem removeId_cons {p : Nat × Entry K V} {l : List (Nat × Entry K V)} {id : Nat} :
    removeId (p :: l) id = if p.1 = id then l else p :: removeId l id := rfl

theorem backElem_nil {α : Type} : backElem ([] : List α) = none := rfl

theorem backElem_singleton {α : Type} (a : α) : backElem [a] = some a := rfl

theorem backElem_cons_cons {α : Type} (x y : α) (t : List α) :
    backElem (x :: y :: t) = backElem (y :: t) := rfl

theorem image_nil : image ([] : List (Nat × Entry K V)) = [] := rfl

theorem image_cons {p : Nat × Entry K V} {l : List (Nat × Entry K V)} :
    image (p :: l) = (p.2.key, p.1) :: image l := rfl

theorem listKeys_nil : listKeys ([] : List (Nat × Entry K V)) = [] := rfl

theorem listKeys_cons {p : Nat × Entry K V} {l : List (Nat × Entry K V)} :
    listKeys (p :: l) = p.2.key :: listKeys l := rfl

theorem listIds_nil : listIds ([] : List (Nat × Entry K V)) = [] := rfl

theorem listIds_cons {p : Nat × Entry K V} {l : List (Nat × Entry K V)} :
    listIds (p :: l) = p.1 :: listIds l := rfl

theorem image_map_fst (l : List (Nat × Entry K V)) :
    (image l).map Prod.fst = listKeys l := by
  induction l with
  | nil => rfl
  | cons p rest ih => simp only [image, listKeys, List.map_cons] at ih ⊢; rw [ih]

theorem listKeys_append (l1 l2 : List (Nat × Entry K V)) :
    listKeys (l1 ++ l2) = listKeys l1 ++ listKeys l2 :=
  List.map_append _ l1 l2

theorem listIds_append (l1 l2 : List (Nat × Entry K V)) :
    listIds (l1 ++ l2) = listIds l1 ++ listIds l2 :=
  List.map_append _ l1 l2

/-! ### Membership and permutation lemmas for the helpers -/

theorem mapLookup_mem {m : List (K × Nat)} {k : K} {id : Nat}
    (h : mapLookup m k = some id) : (k, id) ∈ m := by
  induction m with
  | nil => simp [mapLookup_nil] at h
  | cons p rest ih =>
    rw [mapLookup_cons] at h
    by_cases hp : p.1 = k
    · rw [if_pos hp] at h
      obtain rfl : p.2 = id := Option.some.inj h
      have : p = (k, p.2) := by rw [← hp]
      rw [← this]
      exact List.mem_cons_self p rest
    · rw [if_neg hp] at h
      exact List.mem_cons_of_mem p (ih h)

theorem mapLookup_none_not_mem {m : List (K × Nat)} {k : K} {id : Nat}
    (h : mapLookup m k = none) : (k, id) ∉ m := by
  induction m with
  | nil => simp
  | cons p rest ih =>
    rw [mapLookup_cons] at h
    by_cases hp : p.1 = k
    · rw [if_pos hp] at h
      simp at h
    · rw [if_neg hp] at h
      intro hmem
      rcases List.mem_cons.mp hmem with h2 | h2
      · exact hp (congrArg Prod.fst h2.symm)
      · exact ih h h2

theorem findId_mem {l : List (Nat × Entry K V)} {id : Nat} {e : Entry K V}
    (h : findId l id = some e) : (id, e) ∈ l := by
  induction l with
  | nil => simp [findId_nil] at h
  | cons p rest ih =>
    rw [findId_cons] at h
    by_cases hp : p.1 = id
    · rw [if_pos hp] at h
      obtain rfl : p.2 = e := Option.some.inj h
      have : p = (id, p.2) := by rw [← hp]
      rw [← this]
      exact List.mem_cons_self p rest
    · rw [if_neg hp] at h
      exact List.mem_cons_of_mem p (ih h)

theorem findId_of_mem_nodup {l : List (Nat × Entry K V)} {id : Nat} {e : Entry K V}
    (hn : (listIds l).Nodup) (hm : (id, e) ∈ l) : findId l id = some e := by
  induction l with
  | nil => cases hm
  | cons p rest ih =>
    rw [listIds_cons, List.nodup_cons] at hn
    rcases List.mem_cons.mp hm with h | h
    · have h1 : p.1 = id := congrArg Prod.fst h.symm
      have h2 : p.2 = e := congrArg Prod.snd h.symm
      rw [findId_cons, if_pos h1, h2]
    · by_cases hp : p.1 = id
      · exact absurd (by rw [hp]; exact List.mem_map.mpr ⟨(id, e), h, rfl⟩) hn.1
      · rw [findId_cons, if_neg hp]
        exact ih hn.2 h

theorem perm_cons_removeId {l : List (Nat × Entry K V)} {id : Nat} {e : Entry K V}
    (h : findId l id = some e) : l.Perm ((id, e) :: removeId l id) := by
  induction l with
  | nil => simp [findId_nil] at h
  | cons p rest ih =>
    by_cases hp : p.1 = id
    · rw [findId_cons, if_pos hp] at h
      obtain rfl : p.2 = e := Option.some.inj h
      rw [removeId_cons, if_pos hp]
      have hpe : p = (id, p.2) := by rw [← hp]
      rw [← hpe]
    · rw [findId_cons, if_neg hp] at h
      rw [removeId_cons, if_neg hp]
      exact ((ih h).cons p).trans (List.Perm.swap (id, e) p _)

theorem removeId_subset {l : List (Nat × Entry K V)} {id : Nat} {a : Nat × Entry K V}
    (h : a ∈ removeId l id) : a ∈ l := by
  induction l with
  | nil =>
    rw [removeId_nil] at h
    exact absurd h (List.not_mem_nil a)
  | cons p rest ih =>
    rw [removeId_cons] at h
    by_cases hp : p.1 = id
    · rw [if_pos hp] at h
      exact List.mem_cons_of_mem p h
    · rw [if_neg hp] at h
      rcases List.mem_cons.mp h with h2 | h2
      · exact h2 ▸ List.mem_cons_self p rest
      · exact List.mem_cons_of_mem p (ih h2)

theorem backElem_mem {α : Type} : ∀ {l : List α} {a : α}, backElem l = some a → a ∈ l
  | [], a, h => by simp [backElem_nil] at h
  | [b], a, h => by
    rw [backElem_singleton] at h
    simp [Option.some.inj h]
  | x :: y :: t, a, h => by
    rw [backElem_cons_cons] at h
    exact List.mem_cons_of_mem x (backElem_mem h)

theorem backElem_eq_none {α : Type} : ∀ {l : List α}, backElem l = none → l = []
  | [], _ => rfl
  | [b], h => by simp [backElem_singleton] at h
  | x :: y :: t, h => by
    rw [backElem_cons_cons] at h
    have := backElem_eq_none h
    simp at this

theorem backElem_cons_of_ne_nil {α : Type} (x : α) {l : List α} (h : l ≠ []) :
    backElem (x :: l) = backElem l := by
  cases l with
  | nil => exact absurd rfl h
  | cons y t => rfl

theorem dropBack_append_back {α : Type} :
    ∀ {l : List α} {a : α}, backElem l = some a → dropBack l ++ [a] = l
  | [], a, h => by simp [backElem_nil] at h
  | [b], a, h => by
    rw [backElem_singleton] at h
    simp [dropBack, Option.some.inj h]
  | x :: y :: t, a, h => by
    rw [backElem_cons_cons] at h
    show x :: dropBack (y :: t) ++ [a] = x :: y :: t
    rw [List.cons_append, dropBack_append_back h]

theorem backElem_map {α β : Type} (f : α → β) :
    ∀ (l : List α), backElem (l.map f) = (backElem l).map f
  | [] => rfl
  | [a] => rfl
  | x :: y :: t => by
    rw [List.map_cons, List.map_cons, backElem_cons_cons, backElem_cons_cons,
      ← List.map_cons f y t, backElem_map f (y :: t)]

theorem reverse_head_eq_backElem {α : Type} : ∀ (l : List α), l.reverse.head? = backElem l
  | [] => rfl
  | x :: rest => by
    cases hrev : rest.reverse with
    | nil =>
      have hr : rest = [] := by simpa using congrArg List.reverse hrev
      subst hr
      simp [backElem_singleton]
    | cons z w =>
      have h1 : (x :: rest).reverse = z :: (w ++ [x]) := by
        rw [List.reverse_cons, hrev, List.cons_append]
      have h2 : rest ≠ [] := by
        intro hr
        rw [hr] at hrev
        simp at hrev
      rw [h1, backElem_cons_of_ne_nil x h2, ← reverse_head_eq_backElem rest, hrev]
      rfl

theorem removeId_append {l1 l2 : List (Nat × Entry K V)} {id : Nat}
    (h : id ∉ listIds l1) : removeId (l1 ++ l2) id = l1 ++ removeId l2 id := by
  induction l1 with
  | nil => simp
  | cons p rest ih =>
    rw [listIds_cons] at h
    simp only [List.mem_cons, not_or] at h
    rw [List.cons_append, removeId_cons, if_neg (fun hc => h.1 hc.symm), ih h.2,
      List.cons_append]

theorem removeId_eq_dropBack {l : List (Nat × Entry K V)} {el : Nat × Entry K V}
    (hn : (listIds l).Nodup) (hb : backElem l = some el) :
    removeId l el.1 = dropBack l := by
  have hsplit : dropBack l ++ [el] = l := dropBack_append_back hb
  have hid : el.1 ∉ listIds (dropBack l) := by
    have hnd : (listIds (dropBack l ++ [el])).Nodup := by rw [hsplit]; exact hn
    rw [listIds_append] at hnd
    have hperm : (listIds (dropBack l) ++ listIds [el]).Perm (el.1 :: listIds (dropBack l)) :=
      List.perm_append_singleton el.1 (listIds (dropBack l))
    exact (List.nodup_cons.mp (hperm.nodup hnd)).1
  have h2 : removeId (dropBack l ++ [el]) el.1 = dropBack l ++ removeId [el] el.1 :=
    removeId_append hid
  rw [hsplit] at h2
  rw [h2]
  simp [removeId]

/-! ### Lemmas about mapErase -/

theorem mapErase_nil {k : K} : mapErase ([] : List (K × Nat)) k = [] := rfl

theorem mapErase_cons {p : K × Nat} {m : List (K × Nat)} {k : K} :
    mapErase (p :: m) k = if p.1 = k then mapErase m k else p :: mapErase m k := rfl

theorem mapErase_perm (k : K) {m1 m2 : List (K × Nat)} (h : m1.Perm m2) :
    (mapErase m1 k).Perm (mapErase m2 k) := by
  induction h with
  | nil => exact List.Perm.refl _
  | cons x h ih =>
    by_cases hx : x.1 = k
    · rw [mapErase_cons, mapErase_cons, if_pos hx, if_pos hx]
      exact ih
    · rw [mapErase_cons, mapErase_cons, if_neg hx, if_neg hx]
      exact ih.cons x
  | swap x y l =>
    by_cases hx : x.1 = k <;> by_cases hy : y.1 = k <;>
      simp [mapErase_cons, hx, hy]
    exact List.Perm.swap x y _
  | trans h1 h2 ih1 ih2 => exact ih1.trans ih2

theorem mapErase_eq_self {m : List (K × Nat)} {k : K}
    (h : ∀ p ∈ m, ¬ p.1 = k) : mapErase m k = m := by
  induction m with
  | nil => rfl
  | cons p rest ih =>
    rw [mapErase_cons, if_neg (h p (List.mem_cons_self p rest)),
      ih (fun q hq => h q (List.mem_cons_of_mem p hq))]

theorem mapErase_mem {m : List (K × Nat)} {k : K} {p : K × Nat}
    (h : p ∈ mapErase m k) : p ∈ m ∧ ¬ p.1 = k := by
  induction m with
  | nil => simp [mapErase_nil] at h
  | cons q rest ih =>
    rw [mapErase_cons] at h
    by_cases hq : q.1 = k
    · rw [if_pos hq] at h
      obtain ⟨h1, h2⟩ := ih h
      exact ⟨List.mem_cons_of_mem q h1, h2⟩
    · rw [if_neg hq] at h
      rcases List.mem_cons.mp h with h2 | h2
      · exact ⟨h2 ▸ List.mem_cons_self q rest, h2 ▸ hq⟩
      · obtain ⟨h3, h4⟩ := ih h2
        exact ⟨List.mem_cons_of_mem q h3, h4⟩

/-! ### The structural invariant of reachable cache states -/

theorem listKeys_perm {l1 l2 : List (Nat × Entry K V)} (h : l1.Perm l2) :
    (listKeys l1).Perm (listKeys l2) :=
  h.map (fun p : Nat × Entry K V => p.2.key)

theorem listIds_perm {l1 l2 : List (Nat × Entry K V)} (h : l1.Perm l2) :
    (listIds l1).Perm (listIds l2) :=
  h.map Prod.fst

theorem image_perm {l1 l2 : List (Nat × Entry K V)} (h : l1.Perm l2) :
    (image l1).Perm (image l2) :=
  h.map (fun p : Nat × Entry K V => (p.2.key, p.1))

theorem items_keys_nodup {m : List (K × Nat)} {l : List (Nat × Entry K V)}
    (hperm : m.Perm (image l)) (hk : (listKeys l).Nodup) :
    (m.map Prod.fst).Nodup := by
  have h := hperm.map Prod.fst
  rw [image_map_fst] at h
  exact h.symm.nodup hk

theorem wfp_delete {m : List (K × Nat)} {l : List (Nat × Entry K V)} {n id : Nat}
    {e : Entry K V} (hwf : WFparts m l n) (hf : findId l id = some e) :
    WFparts (mapErase m e.key) (removeId l id) n := by
  obtain ⟨hperm, hk, hi, hlt⟩ := hwf
  have hcons : l.Perm ((id, e) :: removeId l id) := perm_cons_removeId hf
  have hkeys : (listKeys l).Perm (e.key :: listKeys (removeId l id)) :=
    listKeys_perm hcons
  have hids : (listIds l).Perm (id :: listIds (removeId l id)) :=
    listIds_perm hcons
  have hknd : (e.key :: listKeys (removeId l id)).Nodup := hkeys.nodup hk
  have hind : (id :: listIds (removeId l id)).Nodup := hids.nodup hi
  refine ⟨?_, (List.nodup_cons.mp hknd).2, (List.nodup_cons.mp hind).2,
    fun p hp => hlt p (removeId_subset hp)⟩
  have h1 : (mapErase m e.key).Perm (mapErase (image l) e.key) :=
    mapErase_perm e.key hperm
  have h2 : (mapErase (image l) e.key).Perm
      (mapErase (image ((id, e) :: removeId l id)) e.key) :=
    mapErase_perm e.key (image_perm hcons)
  have h3 : mapErase (image ((id, e) :: removeId l id)) e.key
      = image (removeId l id) := by
    rw [image_cons, mapErase_cons, if_pos rfl]
    refine mapErase_eq_self (fun p hp hk0 => ?_)
    obtain ⟨q, hq, rfl⟩ := List.mem_map.mp hp
    refine (List.nodup_cons.mp hknd).1 ?_
    rw [← hk0]
    exact List.mem_map.mpr ⟨q, hq, rfl⟩
  rw [h3] at h2
  exact h1.trans h2

theorem wfp_move {m : List (K × Nat)} {l : List (Nat × Entry K V)} {n id : Nat}
    {e e2 : Entry K V} (hwf : WFparts m l n) (hf : findId l id = some e)
    (hkey : e2.key = e.key) : WFparts m ((id, e2) :: removeId l id) n := by
  obtain ⟨hperm, hk, hi, hlt⟩ := hwf
  have hcons : l.Perm ((id, e) :: removeId l id) := perm_cons_removeId hf
  refine ⟨?_, ?_, ?_, ?_⟩
  · have h := hperm.trans (image_perm hcons)
    rw [image_cons] at h ⊢
    rw [hkey]
    exact h
  · rw [listKeys_cons, hkey]
    exact (listKeys_perm hcons).nodup hk
  · rw [listIds_cons]
    exact (listIds_perm hcons).nodup hi
  · intro p hp
    rcases List.mem_cons.mp hp with h | h
    · rw [h]
      exact hlt (id, e) (findId_mem hf)
    · exact hlt p (removeId_subset h)

theorem wfp_insert {m : List (K × Nat)} {l : List (Nat × Entry K V)} {n : Nat}
    (k : K) (v : V) (ts : Int) (hwf : WFparts m l n)
    (hnone : mapLookup m k = none) :
    WFparts ((k, n) :: m) ((n, ⟨k, v, ts⟩) :: l) (n + 1) := by
  obtain ⟨hperm, hk, hi, hlt⟩ := hwf
  have hknotin : k ∉ listKeys l := by
    intro hmem
    obtain ⟨q, hq, hqk⟩ := List.mem_map.mp hmem
    have himg : (k, q.1) ∈ image l := List.mem_map.mpr ⟨q, hq, by rw [hqk]⟩
    exact mapLookup_none_not_mem hnone (hperm.mem_iff.mpr himg)
  have hnnotin : n ∉ listIds l := by
    intro hmem
    obtain ⟨q, hq, hqn⟩ := List.mem_map.mp hmem
    have := hlt q hq
    rw [hqn] at this
    exact lt_irrefl n this
  refine ⟨?_, ?_, ?_, ?_⟩
  · rw [image_cons]
    exact hperm.cons (k, n)
  · rw [listKeys_cons]
    exact List.nodup_cons.mpr ⟨hknotin, hk⟩
  · rw [listIds_cons]
    exact List.nodup_cons.mpr ⟨hnnotin, hi⟩
  · intro p hp
    rcases List.mem_cons.mp hp with h | h
    · rw [h]
      exact Nat.lt_succ_self n
    · exact Nat.lt_succ_of_lt (hlt p h)

/-! ### Preservation of the invariant by every operation -/

theorem wf_evictOldest {c : Cache K V} (hwf : WF c) : WF (c.evictOldest).1 := by
  unfold Cache.evictOldest
  cases hb : backElem c.evictionList with
  | none => exact hwf
  | some el =>
    have hm : (el.1, el.2) ∈ c.evictionList := by
      rw [Prod.mk.eta]
      exact backElem_mem hb
    have hf : findId c.evictionList el.1 = some el.2 :=
      findId_of_mem_nodup hwf.2.2.1 hm
    exact wfp_delete hwf hf

theorem wf_Set {c : Cache K V} (hwf : WF c) (k : K) (v : V) (now r : Int) :
    WF (c.Set k v now r).1 := by
  unfold Cache.Set
  cases hml : mapLookup c.items k with
  | some id =>
    cases hfi : findId c.evictionList id with
    | some e =>
      simp only [hml, hfi]
      exact wfp_move hwf hfi rfl
    | none =>
      simp only [hml, hfi]
      exact hwf
  | none =>
    simp only [hml]
    split
    · exact wf_evictOldest (wfp_insert k v _ hwf hml)
    · exact wfp_insert k v _ hwf hml

theorem wf_Get {c : Cache K V} (hwf : WF c) (k : K) (now : Int) :
    WF (c.Get k now).1 := by
  unfold Cache.Get
  cases hml : mapLookup c.items k with
  | none =>
    simp only [hml]
    exact hwf
  | some id =>
    cases hfi : findId c.evictionList id with
    | none =>
      simp only [hml, hfi]
      exact hwf
    | some e =>
      simp only [hml, hfi]
      split
      · exact wfp_move hwf hfi rfl
      · exact wfp_delete hwf hfi

theorem wf_Remove {c : Cache K V} (hwf : WF c) (k : K) : WF (c.Remove k).1 := by
  unfold Cache.Remove
  cases hml : mapLookup c.items k with
  | none =>
    simp only [hml]
    exact hwf
  | some id =>
    cases hfi : findId c.evictionList id with
    | none =>
      simp only [hml, hfi]
      exact hwf
    | some e =>
      simp only [hml, hfi]
      exact wfp_delete hwf hfi

theorem clearLoop_spec :
    ∀ (todo : List (K × Nat)) (c : Cache K V), WF c → c.items.Perm todo →
      WF (clearLoop c todo) ∧ (clearLoop c todo).items = []
  | [], c, hwf, hperm => ⟨hwf, hperm.eq_nil⟩
  | p :: rest, c, hwf, hperm => by
    have hpm : p ∈ c.items := hperm.mem_iff.mpr (List.mem_cons_self p rest)
    have himg : p ∈ image c.evictionList := hwf.1.mem_iff.mp hpm
    obtain ⟨q, hq, hqe⟩ := List.mem_map.mp himg
    have hq1 : q.1 = p.2 := congrArg Prod.snd hqe
    have hq2 : q.2.key = p.1 := congrArg Prod.fst hqe
    have hmem : (p.2, q.2) ∈ c.evictionList := by
      rw [← hq1, Prod.mk.eta]
      exact hq
    have hf : findId c.evictionList p.2 = some q.2 :=
      findId_of_mem_nodup hwf.2.2.1 hmem
    have hwf2 : WF (c.deleteElement (p.2, q.2)) := wfp_delete hwf hf
    have hkeysnd : (c.items.map Prod.fst).Nodup := items_keys_nodup hwf.1 hwf.2.1
    have hhead : p.1 ∉ rest.map Prod.fst := by
      have hpm2 := hperm.map Prod.fst
      exact (List.nodup_cons.mp (hpm2.nodup hkeysnd)).1
    have hperm2 : ((c.deleteElement (p.2, q.2)).items).Perm rest := by
      show (mapErase c.items q.2.key).Perm rest
      rw [hq2]
      have h1 := mapErase_perm p.1 hperm
      rw [mapErase_cons, if_pos rfl] at h1
      have heq : mapErase rest p.1 = rest :=
        mapErase_eq_self (fun q2 hq2m hq2k => hhead (by
          rw [← hq2k]
          exact List.mem_map.mpr ⟨q2, hq2m, rfl⟩))
      rw [heq] at h1
      exact h1
    have step : clearLoop c (p :: rest)
        = clearLoop (c.deleteElement (p.2, q.2)) rest := by
      simp only [clearLoop, List.foldl_cons, hf]
    rw [step]
    exact clearLoop_spec rest _ hwf2 hperm2

theorem wf_Clear {c : Cache K V} (hwf : WF c) :
    WF c.Clear ∧ c.Clear.items = [] ∧ c.Clear.evictionList = [] := by
  obtain ⟨hw, hitems⟩ := clearLoop_spec c.items c hwf (List.Perm.refl _)
  refine ⟨?_, hitems, rfl⟩
  show WFparts (clearLoop c c.items).items ([] : List (Nat × Entry K V))
    (clearLoop c c.items).nextId
  rw [hitems]
  exact ⟨List.Perm.refl _, List.nodup_nil, List.nodup_nil,
    fun p hp => absurd hp (List.not_mem_nil p)⟩

theorem wf_resizeLoop : ∀ (n : Nat) {c : Cache K V}, WF c → WF (c.resizeLoop n)
  | 0, _, hwf => hwf
  | n + 1, c, hwf => by
    show WF (if (c.evictOldest).2 = true then Cache.resizeLoop (c.evictOldest).1 n
      else (c.evictOldest).1)
    split
    · exact wf_resizeLoop n (wf_evictOldest hwf)
    · exact wf_evictOldest hwf

theorem wf_Resize {c : Cache K V} (hwf : WF c) (n : Int) : WF (c.Resize n).1 := by
  unfold Cache.Resize
  split
  · exact hwf
  · exact wf_resizeLoop _ hwf

theorem wf_applyOp {c : Cache K V} (hwf : WF c) (op : Op K V) :
    WF (applyOp c op) := by
  cases op with
  | set k v now r => exact wf_Set hwf k v now r
  | get k now => exact wf_Get hwf k now
  | remove k => exact wf_Remove hwf k
  | evictOldest => exact wf_evictOldest hwf
  | clear => exact (wf_Clear hwf).1
  | resize n => exact wf_Resize hwf n

theorem wf_run : ∀ (ops : List (Op K V)) {c : Cache K V}, WF c → WF (run c ops)
  | [], _, hwf => hwf
  | op :: ops, c, hwf => by
    show WF (run (applyOp c op) ops)
    exact wf_run ops (wf_applyOp hwf op)

theorem New_inv {cap M m : Int} {c : Cache K V} (h : New cap M m = some c) :
    WF c ∧ c.capacity = cap ∧ 0 < cap ∧ c.maxAge = M ∧
    0 ≤ c.minAge ∧ c.minAge ≤ c.maxAge ∧
    c.minAge = (if m = 0 then M else m) ∧
    c.items = [] ∧ c.evictionList = [] ∧ c.events = [] := by
  unfold New at h
  by_cases h1 : cap ≤ 0
  · rw [if_pos h1] at h
    exact Option.noConfusion h
  rw [if_neg h1] at h
  by_cases h2 : M < 0
  · rw [if_pos h2] at h
    exact Option.noConfusion h
  rw [if_neg h2] at h
  by_cases h3 : m < 0
  · rw [if_pos h3] at h
    exact Option.noConfusion h
  rw [if_neg h3] at h
  by_cases h4 : 0 < m ∧ M < m
  · rw [if_pos h4] at h
    exact Option.noConfusion h
  rw [if_neg h4] at h
  obtain rfl := Option.some.inj h
  refine ⟨⟨List.Perm.refl _, List.nodup_nil, List.nodup_nil, fun p hp => by simp at hp⟩,
    rfl, not_le.mp h1, rfl, ?_, ?_, rfl, rfl, rfl, rfl⟩
  · show (0 : Int) ≤ if m = 0 then M else m
    by_cases hm : m = 0
    · rw [if_pos hm]
      exact not_lt.mp h2
    · rw [if_neg hm]
      exact not_lt.mp h3
  · show (if m = 0 then M else m) ≤ M
    by_cases hm : m = 0
    · rw [if_pos hm]
    · rw [if_neg hm]
      have hm0 : 0 < m := lt_of_le_of_ne (not_lt.mp h3) (Ne.symm hm)
      exact not_lt.mp (fun hMm => h4 ⟨hm0, hMm⟩)

theorem int64wrap_eq_self {x : Int} (h : int64Range x) : int64wrap x = x := by
  obtain ⟨h1, h2⟩ := h
  unfold int64wrap
  omega

/-! ### Claim C10 -/

/-- C10 counterexample: Stats.Delta computes Go int64 differences, which
wrap on overflow.  With s.Sets the least int64 and p.Sets = 1 the code
returns 2 to the 63 minus 1, not the mathematical difference. -/
theorem stats_delta_overflow_counterexample :
    (statsOv.Delta statsOvPrev).Sets = 2 ^ 63 - 1 ∧
    statsOv.Sets - statsOvPrev.Sets = -(2 ^ 63) - 1 ∧
    ¬ (statsOv.Delta statsOvPrev).Sets = statsOv.Sets - statsOvPrev.Sets := by
  refine ⟨by decide, by decide, by decide⟩

/-- C10 (amended): for all Stats values s and p, s.Delta(p) keeps the
Capacity and Count gauges of s unchanged and sets each counter to the
int64 difference of the respective fields; whenever those differences are
representable as int64 (always the case for counters that have not
overflowed), the counters equal the mathematical differences s minus p. -/
theorem stats_delta_amended (s p : Stats)
    (h1 : int64Range (s.Sets - p.Sets)) (h2 : int64Range (s.Gets - p.Gets))
    (h3 : int64Range (s.Hits - p.Hits)) (h4 : int64Range (s.Misses - p.Misses))
    (h5 : int64Range (s.Evictions - p.Evictions)) :
    (s.Delta p).Capacity = s.Capacity ∧ (s.Delta p).Count = s.Count ∧
    (s.Delta p).Sets = s.Sets - p.Sets ∧ (s.Delta p).Gets = s.Gets - p.Gets ∧
    (s.Delta p).Hits = s.Hits - p.Hits ∧
    (s.Delta p).Misses = s.Misses - p.Misses ∧
    (s.Delta p).Evictions = s.Evictions - p.Evictions :=
  ⟨rfl, rfl, int64wrap_eq_self h1, int64wrap_eq_self h2, int64wrap_eq_self h3,
    int64wrap_eq_self h4, int64wrap_eq_self h5⟩

/-- C10 witness: the amended theorem applied to two concrete snapshots. -/
theorem stats_delta_amended_witness :
    (statsW.Delta statsWPrev).Capacity = statsW.Capacity ∧
    (statsW.Delta statsWPrev).Count = statsW.Count ∧
    (statsW.Delta statsWPrev).Sets = statsW.Sets - statsWPrev.Sets ∧
    (statsW.Delta statsWPrev).Gets = statsW.Gets - statsWPrev.Gets ∧
    (statsW.Delta statsWPrev).Hits = statsW.Hits - statsWPrev.Hits ∧
    (statsW.Delta statsWPrev).Misses = statsW.Misses - statsWPrev.Misses ∧
    (statsW.Delta statsWPrev).Evictions = statsW.Evictions - statsWPrev.Evictions :=
  stats_delta_amended statsW statsWPrev (by decide) (by decide) (by decide)
    (by decide) (by decide)

/-! ### Claim C6 -/

/-- C6: Resize with n at most 0, SetMaxAge with a negative duration or
one below minAge, and SetMinAge with a negative duration or one above
maxAge each report an error and return the cache state entirely
unchanged. -/
theorem reconfig_errors_frame (c : Cache K V) (n d1 d2 : Int)
    (hn : n ≤ 0) (h1 : d1 < 0 ∨ d1 < c.minAge) (h2 : d2 < 0 ∨ c.maxAge < d2) :
    c.Resize n = (c, true) ∧ c.SetMaxAge d1 = (c, true) ∧
    c.SetMinAge d2 = (c, true) := by
  refine ⟨?_, ?_, ?_⟩
  · unfold Cache.Resize
    rw [if_pos hn]
  · unfold Cache.SetMaxAge
    rcases h1 with h | h
    · rw [if_pos h]
    · by_cases h0 : d1 < 0
      · rw [if_pos h0]
      · rw [if_neg h0, if_pos h]
  · unfold Cache.SetMinAge
    rcases h2 with h | h
    · rw [if_pos h]
    · by_cases h0 : d2 < 0
      · rw [if_pos h0]
      · rw [if_neg h0, if_pos h]

/-- C6 witness: invalid reconfiguration arguments on a concrete cache. -/
theorem reconfig_errors_frame_witness :
    c5state.Resize 0 = (c5state, true) ∧
    c5state.SetMaxAge (-3) = (c5state, true) ∧
    c5state.SetMinAge 50 = (c5state, true) :=
  reconfig_errors_frame c5state 0 (-3) 50 (by decide) (by decide) (by decide)

/-! ### Claim C2 -/

/-- C2 counterexample: a cache constructed with minAge = 0 and
maxAge = 100 has its minAge field replaced by maxAge (cache.go 137-140),
so jitter is disabled: a Set at instant 0 whose random draw is 7 stores
timestamp 0 and not now minus the draw, which the claim requires to be
-7. -/
theorem jitter_zero_minage_counterexample :
    (New 4 100 0 : Option (Cache Nat Nat)) = some jitterBase ∧
    jitterBase.minAge = jitterBase.maxAge ∧
    ((jitterBase.Set 1 5 0 7).1.evictionList.map fun p => p.2.timestamp) = [0] ∧
    ¬ (0 : Int) = 0 - 7 := by
  refine ⟨by decide, by decide, by decide, by decide⟩

/-- C2 (amended): constructing with minAge = 0 sets minAge to maxAge and
disables jitter entirely, so every Set stores timestamp = now regardless
of the random draw; the claimed spread happens only when the cache is
constructed with 0 < minAge < maxAge, in which case each Set stores
now minus the draw and distinct draws at the same instant yield distinct
timestamps. -/
theorem jitter_amended (cap M m now r r2 : Int) (c cJ : Cache K V)
    (h0 : New cap M 0 = some c) (hJ : New cap M m = some cJ)
    (hm : 0 < m) (hmM : m < M) (hr : ¬ r = r2) :
    c.getTimestamp now r = now ∧
    cJ.getTimestamp now r = now - r ∧
    ¬ cJ.getTimestamp now r = cJ.getTimestamp now r2 := by
  obtain ⟨-, -, -, hMc, -, -, hminc, -, -, -⟩ := New_inv h0
  obtain ⟨-, -, -, hMJ, -, -, hminJ, -, -, -⟩ := New_inv hJ
  have hc : c.minAge = c.maxAge := by
    rw [hminc, hMc, if_pos rfl]
  have hJne : ¬ cJ.minAge = cJ.maxAge := by
    rw [hminJ, hMJ, if_neg (by omega : ¬ m = 0)]
    omega
  refine ⟨?_, ?_, ?_⟩
  · unfold Cache.getTimestamp
    rw [if_pos hc]
  · unfold Cache.getTimestamp
    rw [if_neg hJne]
  · unfold Cache.getTimestamp
    rw [if_neg hJne, if_neg hJne]
    omega

/-- C2 witness: the amended theorem applied to New 2 100 0 and
New 2 100 40 at instant 0 with draws 3 and 7. -/
theorem jitter_amended_witness :
    jitterCW.getTimestamp 0 3 = 0 ∧
    jitterCJW.getTimestamp 0 3 = 0 - 3 ∧
    ¬ jitterCJW.getTimestamp 0 3 = jitterCJW.getTimestamp 0 7 :=
  jitter_amended 2 100 40 0 3 7 jitterCW jitterCJW (by decide) (by decide)
    (by decide) (by decide) (by decide)

/-! ### Claim C3 -/

/-- C3: after any sequence of Set, Get, Remove, EvictOldest, Clear and
Resize operations on a freshly constructed cache, the index size, the
recency-list length and Len() all agree, and the index keys are exactly
the keys stored in the recency-list entries. -/
theorem index_list_agreement (cap M m : Int) (c0 : Cache K V)
    (h0 : New cap M m = some c0) (ops : List (Op K V)) :
    (run c0 ops).items.length = (run c0 ops).Len ∧
    (run c0 ops).evictionList.length = (run c0 ops).Len ∧
    ∀ k, k ∈ (run c0 ops).Keys ↔ k ∈ listKeys (run c0 ops).evictionList := by
  have hwf : WF (run c0 ops) := wf_run ops (New_inv h0).1
  obtain ⟨hperm, -, -, -⟩ := hwf
  refine ⟨?_, rfl, ?_⟩
  · rw [hperm.length_eq]
    simp [image, Cache.Len]
  · intro k
    have h2 := hperm.map Prod.fst
    rw [image_map_fst] at h2
    exact h2.mem_iff

/-- C3 witness: the agreement after a concrete mixed operation run. -/
theorem index_list_agreement_witness :
    (run c3base c3ops).items.length = (run c3base c3ops).Len ∧
    (run c3base c3ops).evictionList.length = (run c3base c3ops).Len ∧
    ∀ k, k ∈ (run c3base c3ops).Keys ↔ k ∈ listKeys (run c3base c3ops).evictionList :=
  index_list_agreement 3 7 7 c3base (by decide) c3ops

/-! ### Claim C4 -/

theorem removeId_length {l : List (Nat × Entry K V)} {id : Nat} {e : Entry K V}
    (hf : findId l id = some e) : (removeId l id).length + 1 = l.length := by
  have h := (perm_cons_removeId hf).length_eq
  rw [List.length_cons] at h
  omega

theorem evictOldest_capacity (c : Cache K V) :
    (c.evictOldest).1.capacity = c.capacity := by
  unfold Cache.evictOldest
  cases hb : backElem c.evictionList with
  | none => rfl
  | some el => rfl

theorem Set_capacity (c : Cache K V) (k : K) (v : V) (now r : Int) :
    (c.Set k v now r).1.capacity = c.capacity := by
  unfold Cache.Set
  cases hml : mapLookup c.items k with
  | some id =>
    cases hfi : findId c.evictionList id with
    | some e => simp only [hml, hfi]
    | none => simp only [hml, hfi]
  | none =>
    simp only [hml]
    split
    · exact evictOldest_capacity _
    · rfl

theorem Set_len_le {c : Cache K V} (hwf : WF c)
    (hle : (c.Len : Int) ≤ c.capacity) (k : K) (v : V) (now r : Int) :
    ((c.Set k v now r).1.Len : Int) ≤ (c.Set k v now r).1.capacity := by
  rw [Set_capacity c k v now r]
  unfold Cache.Len at hle
  unfold Cache.Set
  cases hml : mapLookup c.items k with
  | some id =>
    cases hfi : findId c.evictionList id with
    | some e =>
      simp only [hml, hfi]
      have hlen := removeId_length hfi
      simp only [Cache.Len, List.length_cons]
      omega
    | none =>
      simp only [hml, hfi]
      exact hle
  | none =>
    simp only [hml]
    split
    · unfold Cache.evictOldest
      split
      · next heq =>
        dsimp only at heq
        exact absurd (backElem_eq_none heq) (by simp)
      · next el heq =>
        dsimp only at heq ⊢
        have hwf2 := wfp_insert k v
          (({ c with sets := c.sets + 1 } : Cache K V).getTimestamp now r)
          hwf hml
        have hids := hwf2.2.2.1
        have hf := findId_of_mem_nodup hids (backElem_mem heq)
        have hlen := removeId_length hf
        simp only [Cache.deleteElement, Cache.Len, List.length_cons] at hlen ⊢
        omega
    · next hng =>
      simp only [List.length_cons] at hng
      simp only [Cache.Len, List.length_cons]
      omega

theorem runSets_bound :
    ∀ (l : List (K × V × Int × Int)) {c : Cache K V}, WF c →
      (c.Len : Int) ≤ c.capacity →
      WF (runSets c l) ∧ ((runSets c l).Len : Int) ≤ (runSets c l).capacity ∧
      (runSets c l).capacity = c.capacity
  | [], _, hwf, hle => ⟨hwf, hle, rfl⟩
  | q :: rest, c, hwf, hle => by
    have h1 := wf_Set hwf q.1 q.2.1 q.2.2.1 q.2.2.2
    have h2 := Set_len_le hwf hle q.1 q.2.1 q.2.2.1 q.2.2.2
    have h3 := Set_capacity c q.1 q.2.1 q.2.2.1 q.2.2.2
    have ih := runSets_bound rest h1 h2
    exact ⟨ih.1, ih.2.1, ih.2.2.trans h3⟩

/-- C4: from a cache constructed with capacity cap (necessarily
positive), any sequence of Sets leaves the capacity untouched and keeps
Len() at most cap after every step, in particular at the end. -/
theorem sets_respect_capacity (cap M m : Int) (c0 : Cache K V)
    (h0 : New cap M m = some c0) (l : List (K × V × Int × Int)) :
    0 < cap ∧ (runSets c0 l).capacity = cap ∧
    ((runSets c0 l).Len : Int) ≤ cap := by
  obtain ⟨hwf, hcap, hpos, -, -, -, -, hitems, hlist, -⟩ := New_inv h0
  have h0len : (c0.Len : Int) ≤ c0.capacity := by
    unfold Cache.Len
    rw [hlist, hcap]
    simp only [List.length_nil, Nat.cast_zero]
    omega
  have h := runSets_bound l hwf h0len
  refine ⟨hpos, h.2.2.trans hcap, ?_⟩
  have h4 := h.2.1
  rw [h.2.2, hcap] at h4
  exact h4

/-- C4 witness: four Sets on a capacity-2 cache. -/
theorem sets_respect_capacity_witness :
    0 < (2 : Int) ∧ (runSets c4base c4sets).capacity = 2 ∧
    ((runSets c4base c4sets).Len : Int) ≤ 2 :=
  sets_respect_capacity 2 0 0 c4base (by decide) c4sets

/-! ### Claim C5 -/

theorem mapLookup_cons_eq {k : K} {id : Nat} {m : List (K × Nat)} :
    mapLookup ((k, id) :: m) k = some id := by
  rw [mapLookup_cons, if_pos rfl]

theorem findId_cons_eq {id : Nat} {e : Entry K V} {l : List (Nat × Entry K V)} :
    findId ((id, e) :: l) id = some e := by
  rw [findId_cons, if_pos rfl]

theorem lookup_find_key {c : Cache K V} {k : K} {id : Nat} {e : Entry K V}
    (hwf : WF c) (hid : mapLookup c.items k = some id)
    (he : findId c.evictionList id = some e) : e.key = k := by
  have hm : (k, id) ∈ c.items := mapLookup_mem hid
  have himg : (k, id) ∈ image c.evictionList := hwf.1.mem_iff.mp hm
  obtain ⟨q, hq, hqe⟩ := List.mem_map.mp himg
  have h1 : q.1 = id := congrArg Prod.snd hqe
  have h2 : q.2.key = k := congrArg Prod.fst hqe
  have hmem : (id, q.2) ∈ c.evictionList := by
    rw [← h1, Prod.mk.eta]
    exact hq
  have hf2 : findId c.evictionList id = some q.2 :=
    findId_of_mem_nodup hwf.2.2.1 hmem
  rw [he] at hf2
  rw [Option.some.inj hf2]
  exact h2

theorem lookup_none_key_not_in_list {c : Cache K V} {k : K} (hwf : WF c)
    (hml : mapLookup c.items k = none) : ¬ k ∈ listKeys c.evictionList := by
  intro hmem
  obtain ⟨q, hq, hqk⟩ := List.mem_map.mp hmem
  have himg : (k, q.1) ∈ image c.evictionList :=
    List.mem_map.mpr ⟨q, hq, by rw [hqk]⟩
  exact mapLookup_none_not_mem hml (hwf.1.mem_iff.mpr himg)

/-- C5: an entry is expired exactly when maxAge > 0 and now minus its
timestamp strictly exceeds maxAge; Get on a present but expired key
reports not-found, removes the entry from both the index and the recency
list (each shrinking by exactly one), fires the expiration callback
exactly once with that entry key and value, bumps gets and misses, and
leaves hits unchanged. -/
theorem expired_get_spec (c : Cache K V) (k : K) (now : Int) (id : Nat)
    (e : Entry K V) (hwf : WF c)
    (hid : mapLookup c.items k = some id)
    (he : findId c.evictionList id = some e)
    (hM : 0 < c.maxAge) (hexp : c.maxAge < now - e.timestamp) :
    (∀ M ts t : Int, 0 ≤ M → (¬ isLive M ts t ↔ (0 < M ∧ M < t - ts))) ∧
    (c.Get k now).2 = none ∧
    ¬ k ∈ (c.Get k now).1.Keys ∧
    ¬ k ∈ listKeys (c.Get k now).1.evictionList ∧
    (c.Get k now).1.items.length + 1 = c.items.length ∧
    (c.Get k now).1.Len + 1 = c.Len ∧
    (c.Get k now).1.events = c.events ++ [Event.expire k e.value] ∧
    (c.Get k now).1.gets = c.gets + 1 ∧
    (c.Get k now).1.misses = c.misses + 1 ∧
    (c.Get k now).1.hits = c.hits := by
  have hek : e.key = k := lookup_find_key hwf hid he
  have hnl : ¬ isLive c.maxAge e.timestamp now := by
    unfold isLive
    omega
  have hget : c.Get k now =
      ({ c with
          gets := c.gets + 1,
          evictionList := removeId c.evictionList id,
          items := mapErase c.items e.key,
          misses := c.misses + 1,
          events := c.events ++ [Event.expire e.key e.value] }, none) := by
    unfold Cache.Get
    simp only [hid, he]
    rw [if_neg hnl]
    simp [Cache.deleteElement]
  have hkeys : (listKeys c.evictionList).Perm
      (e.key :: listKeys (removeId c.evictionList id)) :=
    listKeys_perm (perm_cons_removeId he)
  refine ⟨?_, ?_, ?_, ?_, ?_, ?_, ?_, ?_, ?_, ?_⟩
  · intro M ts t hM0
    unfold isLive
    omega
  · rw [hget]
  · rw [hget]
    intro hmem
    obtain ⟨p, hp, hpk⟩ := List.mem_map.mp hmem
    exact (mapErase_mem hp).2 (by rw [hpk, hek])
  · rw [hget]
    have hnd := hkeys.nodup hwf.2.1
    have := (List.nodup_cons.mp hnd).1
    rw [hek] at this
    exact this
  · rw [hget]
    have ha := (wfp_delete hwf he).1.length_eq
    have hb := hwf.1.length_eq
    simp only [image, List.length_map] at ha hb
    have hc := removeId_length he
    show (mapErase c.items e.key).length + 1 = c.items.length
    omega
  · rw [hget]
    exact removeId_length he
  · rw [hget]
    show c.events ++ [Event.expire e.key e.value] = c.events ++ [Event.expire k e.value]
    rw [hek]
  · rw [hget]
  · rw [hget]
  · rw [hget]

/-- C5 witness: key 1 stored at instant 0 in a cache with maxAge 10 is
expired at instant 100; Get deletes it, logs the expiration callback and
counts a miss. -/
theorem expired_get_spec_witness :
    (∀ M ts t : Int, 0 ≤ M → (¬ isLive M ts t ↔ (0 < M ∧ M < t - ts))) ∧
    (c5state.Get 1 100).2 = none ∧
    ¬ 1 ∈ (c5state.Get 1 100).1.Keys ∧
    ¬ 1 ∈ listKeys (c5state.Get 1 100).1.evictionList ∧
    (c5state.Get 1 100).1.items.length + 1 = c5state.items.length ∧
    (c5state.Get 1 100).1.Len + 1 = c5state.Len ∧
    (c5state.Get 1 100).1.events = c5state.events ++ [Event.expire 1 99] ∧
    (c5state.Get 1 100).1.gets = c5state.gets + 1 ∧
    (c5state.Get 1 100).1.misses = c5state.misses + 1 ∧
    (c5state.Get 1 100).1.hits = c5state.hits :=
  expired_get_spec c5state 1 100 0 ⟨1, 99, 0⟩ (by decide) (by decide) (by decide)
    (by decide) (by decide)

/-! ### Claim C9 -/

/-- C9: Get on a present, live key promotes that entry to the front of
the recency list (the key multiset is preserved, nothing is deleted, the
index and the callback log are untouched) and reports the stored value;
Peek and Has return the cache state completely unchanged for every cache
and key, and on this state report the stored value and presence. -/
theorem get_promotes_frame (c : Cache K V) (k : K) (now : Int) (id : Nat)
    (e : Entry K V) (hwf : WF c)
    (hid : mapLookup c.items k = some id)
    (he : findId c.evictionList id = some e)
    (hlive : isLive c.maxAge e.timestamp now) :
    (listKeys (c.Get k now).1.evictionList).head? = some k ∧
    (listKeys (c.Get k now).1.evictionList).Perm (listKeys c.evictionList) ∧
    (c.Get k now).1.items = c.items ∧
    (c.Get k now).1.events = c.events ∧
    (c.Get k now).2 = some e.value ∧
    c.Peek k = (c, some e.value) ∧
    c.Has k = (c, true) ∧
    (∀ (d : Cache K V) (k2 : K), (d.Peek k2).1 = d ∧ (d.Has k2).1 = d) := by
  have hek : e.key = k := lookup_find_key hwf hid he
  have hget : c.Get k now =
      ({ c with
          gets := c.gets + 1,
          evictionList := (id, e) :: removeId c.evictionList id,
          hits := c.hits + 1 }, some e.value) := by
    unfold Cache.Get
    simp only [hid, he]
    rw [if_pos hlive]
  refine ⟨?_, ?_, ?_, ?_, ?_, ?_, ?_, ?_⟩
  · rw [hget]
    show (listKeys ((id, e) :: removeId c.evictionList id)).head? = some k
    rw [listKeys_cons]
    simp [hek]
  · rw [hget]
    exact (listKeys_perm (perm_cons_removeId he)).symm
  · rw [hget]
  · rw [hget]
  · rw [hget]
  · simp [Cache.Peek, hid, he]
  · simp [Cache.Has, hid]
  · intro d k2
    exact ⟨rfl, rfl⟩

/-- C9 witness: Get at instant 5 on the key stored at instant 0 with
maxAge 10 is a live hit; Peek and Has leave the state unchanged. -/
theorem get_promotes_frame_witness :
    (listKeys (c5state.Get 1 5).1.evictionList).head? = some 1 ∧
    (listKeys (c5state.Get 1 5).1.evictionList).Perm (listKeys c5state.evictionList) ∧
    (c5state.Get 1 5).1.items = c5state.items ∧
    (c5state.Get 1 5).1.events = c5state.events ∧
    (c5state.Get 1 5).2 = some 99 ∧
    c5state.Peek 1 = (c5state, some 99) ∧
    c5state.Has 1 = (c5state, true) ∧
    (∀ (d : Cache Nat Nat) (k2 : Nat), (d.Peek k2).1 = d ∧ (d.Has k2).1 = d) :=
  get_promotes_frame c5state 1 5 0 ⟨1, 99, 0⟩ (by decide) (by decide) (by decide)
    (by decide)

/-! ### Claim C7 -/

theorem removeId_cons_ne2 {id1 id : Nat} {e : Entry K V}
    {l : List (Nat × Entry K V)} (h : ¬ id1 = id) :
    removeId ((id1, e) :: l) id = (id1, e) :: removeId l id := by
  rw [removeId_cons]
  exact if_neg h

theorem mapErase_cons_ne2 {k1 k : K} {id : Nat} {m : List (K × Nat)}
    (h : ¬ k1 = k) :
    mapErase ((k1, id) :: m) k = (k1, id) :: mapErase m k := by
  rw [mapErase_cons]
  exact if_neg h

theorem orderedKeys_head {c : Cache K V} {el : Nat × Entry K V}
    (hb : backElem c.evictionList = some el) :
    (c.OrderedKeys).head? = some el.2.key := by
  unfold Cache.OrderedKeys listKeys
  rw [reverse_head_eq_backElem, backElem_map, hb]
  rfl

theorem Set_result_evictions (d : Cache K V) (k2 : K) (v2 : V) (n2 r2 : Int) :
    ((d.Set k2 v2 n2 r2).2 = true →
      (d.Set k2 v2 n2 r2).1.evictions = d.evictions + 1 ∧
      ∃ ev : Event K V, (d.Set k2 v2 n2 r2).1.events = d.events ++ [ev]) ∧
    ((d.Set k2 v2 n2 r2).2 = false →
      (d.Set k2 v2 n2 r2).1.evictions = d.evictions ∧
      (d.Set k2 v2 n2 r2).1.events = d.events) := by
  unfold Cache.Set
  cases hml2 : mapLookup d.items k2 with
  | some id2 =>
    cases hfi2 : findId d.evictionList id2 with
    | some e2 =>
      simp only [hml2, hfi2]
      constructor
      · intro h
        exact absurd h (by simp)
      · intro _
        exact ⟨by trivial, by trivial⟩
    | none =>
      simp only [hml2, hfi2]
      constructor
      · intro h
        exact absurd h (by simp)
      · intro _
        exact ⟨by trivial, by trivial⟩
  | none =>
    simp only [hml2]
    split
    · unfold Cache.evictOldest
      split
      · next heq =>
        dsimp only at heq
        exact absurd (backElem_eq_none heq) (by simp)
      · next el heq =>
        constructor
        · intro _
          exact ⟨by trivial, Event.evict el.2.key el.2.value, by trivial⟩
        · intro h
          exact absurd h (by simp)
    · constructor
      · intro h
        exact absurd h (by simp)
      · intro _
        exact ⟨by trivial, by trivial⟩

/-- C7: on a cache at capacity, Set of an absent key inserts that key,
reports an eviction, and removes exactly the least recently used entry,
the back of the recency list, which is the first element of
OrderedKeys(); the eviction callback fires once with the removed key and
value and the evictions counter moves by one.  Set returns false
whenever no eviction occurs: if the evictions counter did not move, the
report was false; a true report always moves the counter by one and
appends one eviction event, and a false report moves neither the
counter nor the callback log. -/
theorem set_full_evicts_lru (c : Cache K V) (k : K) (v : V) (now r : Int)
    (el : Nat × Entry K V) (hwf : WF c)
    (hmiss : mapLookup c.items k = none)
    (hfull : (c.Len : Int) = c.capacity)
    (hpos : 0 < c.capacity)
    (hback : backElem c.evictionList = some el) :
    (c.Set k v now r).2 = true ∧
    (c.OrderedKeys).head? = some el.2.key ∧
    listKeys (c.Set k v now r).1.evictionList
      = k :: listKeys (dropBack c.evictionList) ∧
    ¬ el.2.key ∈ listKeys (c.Set k v now r).1.evictionList ∧
    k ∈ (c.Set k v now r).1.Keys ∧
    (c.Set k v now r).1.events = c.events ++ [Event.evict el.2.key el.2.value] ∧
    (c.Set k v now r).1.evictions = c.evictions + 1 ∧
    (∀ (d : Cache K V) (k2 : K) (v2 : V) (n2 r2 : Int),
      ((d.Set k2 v2 n2 r2).1.evictions = d.evictions →
        (d.Set k2 v2 n2 r2).2 = false) ∧
      ((d.Set k2 v2 n2 r2).2 = true →
        (d.Set k2 v2 n2 r2).1.evictions = d.evictions + 1 ∧
        ∃ ev : Event K V, (d.Set k2 v2 n2 r2).1.events = d.events ++ [ev]) ∧
      ((d.Set k2 v2 n2 r2).2 = false →
        (d.Set k2 v2 n2 r2).1.evictions = d.evictions ∧
        (d.Set k2 v2 n2 r2).1.events = d.events)) := by
  have hlnil : c.evictionList ≠ [] := by
    intro h0
    rw [h0, backElem_nil] at hback
    exact Option.noConfusion hback
  have helm : el ∈ c.evictionList := backElem_mem hback
  have helid : ¬ c.nextId = el.1 := by
    have := hwf.2.2.2 el helm
    omega
  have hkne : ¬ k = el.2.key := by
    intro hk
    apply lookup_none_key_not_in_list hwf hmiss
    rw [hk]
    exact List.mem_map.mpr ⟨el, helm, rfl⟩
  have helkey : ¬ el.2.key ∈ listKeys (dropBack c.evictionList) := by
    have hsplit := dropBack_append_back hback
    have hnd : (listKeys (dropBack c.evictionList ++ [el])).Nodup := by
      rw [hsplit]
      exact hwf.2.1
    rw [listKeys_append] at hnd
    have hperm2 : (listKeys (dropBack c.evictionList) ++ listKeys [el]).Perm
        (el.2.key :: listKeys (dropBack c.evictionList)) :=
      List.perm_append_singleton el.2.key _
    exact (List.nodup_cons.mp (hperm2.nodup hnd)).1
  have hremove : removeId c.evictionList el.1 = dropBack c.evictionList :=
    removeId_eq_dropBack hwf.2.2.1 hback
  have hset : c.Set k v now r =
      ({ c with
          sets := c.sets + 1,
          evictionList := (c.nextId, ⟨k, v, c.getTimestamp now r⟩) ::
            dropBack c.evictionList,
          items := mapErase ((k, c.nextId) :: c.items) el.2.key,
          nextId := c.nextId + 1,
          evictions := c.evictions + 1,
          events := c.events ++ [Event.evict el.2.key el.2.value] }, true) := by
    unfold Cache.Set
    simp only [hmiss]
    split
    · unfold Cache.evictOldest
      split
      · next heq =>
        dsimp only at heq
        rw [backElem_cons_of_ne_nil _ hlnil, hback] at heq
        exact Option.noConfusion heq
      · next el2 heq =>
        dsimp only at heq ⊢
        rw [backElem_cons_of_ne_nil _ hlnil, hback] at heq
        obtain rfl : el = el2 := Option.some.inj heq
        simp only [Cache.deleteElement]
        rw [removeId_cons_ne2 helid, hremove]
        rfl
    · next hng =>
      exfalso
      simp only [List.length_cons] at hng
      unfold Cache.Len at hfull
      omega
  refine ⟨?_, orderedKeys_head hback, ?_, ?_, ?_, ?_, ?_, ?_⟩
  · rw [hset]
  · simp only [hset, listKeys_cons]
  · simp only [hset, listKeys_cons]
    intro hmem
    rcases List.mem_cons.mp hmem with h | h
    · exact hkne h.symm
    · exact helkey h
  · rw [hset]
    show k ∈ (mapErase ((k, c.nextId) :: c.items) el.2.key).map Prod.fst
    rw [mapErase_cons_ne2 hkne]
    exact List.mem_map.mpr ⟨(k, c.nextId), List.mem_cons_self _ _, rfl⟩
  · rw [hset]
  · rw [hset]
  · intro d k2 v2 n2 r2
    obtain ⟨htrue, hfalse⟩ := Set_result_evictions d k2 v2 n2 r2
    refine ⟨?_, htrue, hfalse⟩
    intro h
    cases hres : (d.Set k2 v2 n2 r2).2 with
    | false => rfl
    | true =>
      exfalso
      have h2 := (htrue hres).1
      omega

/-- C7 witness: the full capacity-2 cache evicts key 1, its least
recently used entry, when key 3 is inserted. -/
theorem set_full_evicts_lru_witness :
    (c7state.Set 3 33 2 0).2 = true ∧
    (c7state.OrderedKeys).head? = some 1 ∧
    listKeys (c7state.Set 3 33 2 0).1.evictionList
      = 3 :: listKeys (dropBack c7state.evictionList) ∧
    ¬ 1 ∈ listKeys (c7state.Set 3 33 2 0).1.evictionList ∧
    3 ∈ (c7state.Set 3 33 2 0).1.Keys ∧
    (c7state.Set 3 33 2 0).1.events = c7state.events ++ [Event.evict 1 11] ∧
    (c7state.Set 3 33 2 0).1.evictions = c7state.evictions + 1 ∧
    (∀ (d : Cache Nat Nat) (k2 v2 : Nat) (n2 r2 : Int),
      ((d.Set k2 v2 n2 r2).1.evictions = d.evictions →
        (d.Set k2 v2 n2 r2).2 = false) ∧
      ((d.Set k2 v2 n2 r2).2 = true →
        (d.Set k2 v2 n2 r2).1.evictions = d.evictions + 1 ∧
        ∃ ev : Event Nat Nat, (d.Set k2 v2 n2 r2).1.events = d.events ++ [ev]) ∧
      ((d.Set k2 v2 n2 r2).2 = false →
        (d.Set k2 v2 n2 r2).1.evictions = d.evictions ∧
        (d.Set k2 v2 n2 r2).1.events = d.events)) :=
  set_full_evicts_lru c7state 3 33 2 0 (0, ⟨1, 11, 0⟩) (by decide) (by decide)
    (by decide) (by decide) (by decide)

/-! ### Claim C8 -/

theorem lookup_some_find {c : Cache K V} {k : K} {id : Nat} (hwf : WF c)
    (hid : mapLookup c.items k = some id) :
    ∃ e : Entry K V, findId c.evictionList id = some e ∧ e.key = k := by
  have hm : (k, id) ∈ c.items := mapLookup_mem hid
  have himg : (k, id) ∈ image c.evictionList := hwf.1.mem_iff.mp hm
  obtain ⟨q, hq, hqe⟩ := List.mem_map.mp himg
  have h1 : q.1 = id := congrArg Prod.snd hqe
  have h2 : q.2.key = k := congrArg Prod.fst hqe
  refine ⟨q.2, ?_, h2⟩
  apply findId_of_mem_nodup hwf.2.2.1
  rw [← h1, Prod.mk.eta]
  exact hq

/-- C8: Set(k, v) immediately followed by Get(k) returns (v, found) when
maxAge is 0 or maxAge has not yet elapsed at the Get instant, the age
being measured, as the staleness test of Get measures it, against the
entry timestamp assigned by the Set; a Get at the very instant of the
Set always satisfies this condition. -/
theorem set_get_roundtrip (c : Cache K V) (k : K) (v : V) (now r later : Int)
    (hwf : WF c) (hcap : 0 < c.capacity)
    (hlive : isLive c.maxAge (c.getTimestamp now r) later) :
    ((c.Set k v now r).1.Get k later).2 = some v := by
  unfold Cache.Set
  cases hml : mapLookup c.items k with
  | some id =>
    cases hfi : findId c.evictionList id with
    | some e =>
      simp only [hml, hfi]
      simp only [Cache.Get, hml, findId_cons_eq]
      split
      · rfl
      · next hdead =>
        exact absurd hlive hdead
    | none =>
      obtain ⟨e, hfe, -⟩ := lookup_some_find hwf hml
      rw [hfi] at hfe
      exact Option.noConfusion hfe
  | none =>
    simp only [hml]
    split
    · next hgt =>
      have hlnil : c.evictionList ≠ [] := by
        intro h0
        rw [h0] at hgt
        simp only [List.length_cons, List.length_nil] at hgt
        omega
      unfold Cache.evictOldest
      split
      · next heq =>
        dsimp only at heq
        rw [backElem_cons_of_ne_nil _ hlnil] at heq
        exact absurd (backElem_eq_none heq) hlnil
      · next el heq =>
        dsimp only at heq ⊢
        rw [backElem_cons_of_ne_nil _ hlnil] at heq
        have helm : el ∈ c.evictionList := backElem_mem heq
        have helid : ¬ c.nextId = el.1 := by
          have := hwf.2.2.2 el helm
          omega
        have hkne : ¬ k = el.2.key := by
          intro hk
          apply lookup_none_key_not_in_list hwf hml
          rw [hk]
          exact List.mem_map.mpr ⟨el, helm, rfl⟩
        simp only [Cache.Get, Cache.deleteElement, mapErase_cons_ne2 hkne,
          mapLookup_cons_eq, removeId_cons_ne2 helid, findId_cons_eq]
        split
        · rfl
        · next hdead =>
          exact absurd hlive hdead
    · simp only [Cache.Get, mapLookup_cons_eq, findId_cons_eq]
      split
      · rfl
      · next hdead =>
        exact absurd hlive hdead

/-- C8 witness: on the full capacity-2 cache (maxAge 0, never stale),
Set(9, 77) immediately followed by Get(9) returns 77. -/
theorem set_get_roundtrip_witness :
    ((c7state.Set 9 77 5 0).1.Get 9 5).2 = some 77 :=
  set_get_roundtrip c7state 9 77 5 0 5 (by decide) (by decide) (by decide)

/-! ### Claim C1 -/

/-- C1 (code bug evaluation): resizeSetup has capacity 10 and exactly 2
entries; Resize(5), with 5 at least Len(), must remove no entries per
the claim and per the Resize doc comment, yet the code iterates
oldCapacity - n = 5 times and so evicts both entries: the final length
is 0 and the evictions counter is 2. -/
theorem resize_bug_eval :
    (New 10 0 0 : Option (Cache Nat Nat)) = some resizeBase ∧
    resizeSetup.Len = 2 ∧
    (resizeSetup.Len : Int) ≤ 5 ∧
    resizeSetup.Resize 5 = ((resizeSetup.Resize 5).1, false) ∧
    (resizeSetup.Resize 5).1.Len = 0 ∧
    (resizeSetup.Resize 5).1.evictions = 2 := by
  refine ⟨by decide, by decide, by decide, by decide, by decide, by decide⟩

end Agecache
